import Mathlib

/-!
Verification development for the fastsnbt core: a shallow embedding of
`src/fastsnbt/src/parser.rs` (nom-based literal parsers) and
`src/fastsnbt/src/ser/mod.rs` (the sNBT serializer), together with theorems
about the embedded definitions.

Inputs are modelled as `List Char` (Rust `&str`, with byte offsets abstracted
to character offsets, which is faithful here because every offset the code
computes lies on a character boundary).  A nom `IResult` is modelled by
`PRes`: `ok remainder value`, a recoverable `error` (nom `Err::Error`) or an
unrecoverable `failure` (nom `Err::Failure`, produced by `cut`).
-/

namespace Fastsnbt

/-- Result of a nom-style parser: success with the unconsumed remainder,
a recoverable error (`Err::Error`), or an unrecoverable failure
(`Err::Failure`, as produced by `cut`). -/
inductive PRes (α : Type) where
  | ok (rem : List Char) (val : α)
  | error
  | failure
deriving DecidableEq

/-- ASCII digit test, `char::is_ascii_digit` / nom `digit0`/`digit1` element test. -/
def isDigitC (c : Char) : Bool := 48 ≤ c.toNat && c.toNat ≤ 57

/-- Membership in nom's `one_of("123456789")`. -/
def isNonzeroDigitC (c : Char) : Bool := 49 ≤ c.toNat && c.toNat ≤ 57

/-- ASCII lowercasing, as used by nom's `tag_no_case` comparison. -/
def lowerC (c : Char) : Char :=
  if 65 ≤ c.toNat && c.toNat ≤ 90 then Char.ofNat (c.toNat + 32) else c

/-- Model of `opt(alt((char('+'), char('-'))))` / `opt(one_of("+-"))`:
split an optional leading sign off the input, returning (consumed, rest). -/
def signSplit (l : List Char) : List Char × List Char :=
  match l with
  | c :: cs => if c = '+' || c = '-' then ([c], cs) else ([], l)
  | [] => ([], [])

/-- Model of nom's `tag_no_case(t)`: case-insensitive (ASCII) prefix match,
returning the matched slice of the input. -/
def tagNoCase (t : List Char) (l : List Char) : PRes (List Char) :=
  if (l.take t.length).map lowerC = t.map lowerC then
    .ok (l.drop t.length) (l.take t.length)
  else .error

/-- `fn decimal` from parser.rs:
`recognize(tuple((opt(one_of("+-")), alt((recognize(tuple((one_of("123456789"), digit0))), tag("0"))))))`
— optional sign, then a single `0` or a nonzero digit followed by more digits. -/
def decimal (input : List Char) : PRes (List Char) :=
  let (sgn, r1) := signSplit input
  match r1 with
  | c :: cs =>
    if isNonzeroDigitC c then
      .ok (cs.dropWhile isDigitC) (sgn ++ c :: cs.takeWhile isDigitC)
    else if c = '0' then .ok cs (sgn ++ ['0'])
    else .error
  | [] => .error

/-- Sign handling of Rust integer `FromStr`: strip one optional leading
`+`/`-`, remembering whether the value is negated. -/
def intSignSplit (s : List Char) : Bool × List Char :=
  match s with
  | '+' :: cs => (false, cs)
  | '-' :: cs => (true, cs)
  | _ => (false, s)

/-- Model of Rust `str::parse::<iN>()` on the slice recognized by `decimal`:
optional sign, one or more digits, rejected on overflow of the target range.
The target type iN is represented by its range `[lo, hi]` over `Int`. -/
def rustParseInt (lo hi : Int) (s : List Char) : Option Int :=
  let p := intSignSplit s
  if p.2 = [] then none
  else if p.2.all isDigitC then
    let n : Nat := p.2.foldl (fun a c => a * 10 + (c.toNat - 48)) 0
    let v : Int := if p.1 then -(n : Int) else (n : Int)
    if lo ≤ v && v ≤ hi then some v else none
  else none

/-- `pub fn parse_i8`: `decimal`, then suffix `b`/`B`, then `str::parse::<i8>`
applied to the decimal slice (`map_res`). -/
def parse_i8 (input : List Char) : PRes Int :=
  match decimal input with
  | .ok r1 num =>
    match r1 with
    | c :: cs =>
      if c = 'b' || c = 'B' then
        match rustParseInt (-(2 ^ 7)) (2 ^ 7 - 1) num with
        | some v => .ok cs v
        | none => .error
      else .error
    | [] => .error
  | .error => .error
  | .failure => .failure

/-- `pub fn parse_i16`: `decimal`, suffix `s`/`S`, `str::parse::<i16>`. -/
def parse_i16 (input : List Char) : PRes Int :=
  match decimal input with
  | .ok r1 num =>
    match r1 with
    | c :: cs =>
      if c = 's' || c = 'S' then
        match rustParseInt (-(2 ^ 15)) (2 ^ 15 - 1) num with
        | some v => .ok cs v
        | none => .error
      else .error
    | [] => .error
  | .error => .error
  | .failure => .failure

/-- `pub fn parse_i32`: `map_res(decimal, |s| s.parse())` — no type suffix. -/
def parse_i32 (input : List Char) : PRes Int :=
  match decimal input with
  | .ok r1 num =>
    match rustParseInt (-(2 ^ 31)) (2 ^ 31 - 1) num with
    | some v => .ok r1 v
    | none => .error
  | .error => .error
  | .failure => .failure

/-- `pub fn parse_i64`: `decimal`, suffix `l`/`L`, `str::parse::<i64>`. -/
def parse_i64 (input : List Char) : PRes Int :=
  match decimal input with
  | .ok r1 num =>
    match r1 with
    | c :: cs =>
      if c = 'l' || c = 'L' then
        match rustParseInt (-(2 ^ 63)) (2 ^ 63 - 1) num with
        | some v => .ok cs v
        | none => .error
      else .error
    | [] => .error
  | .error => .error
  | .failure => .failure

/-- `fn exp` from parser.rs:
`recognize(tuple((alt((char('e'), char('E'))), opt(alt((char('+'), char('-')))), cut(digit1))))`
— the `cut` turns a missing exponent digit into an unrecoverable failure. -/
def exp (input : List Char) : PRes (List Char) :=
  match input with
  | c :: cs =>
    if c = 'e' || c = 'E' then
      let (sgn, r2) := signSplit cs
      let ds := r2.takeWhile isDigitC
      if ds = [] then .failure
      else .ok (r2.dropWhile isDigitC) (c :: (sgn ++ ds))
    else .error
  | [] => .error

/-- `fn float_num` from parser.rs: optional sign, then
`digit1 '.' digit0?` or `'.' digit1` (alternatives in that order). -/
def float_num (input : List Char) : PRes (List Char) :=
  let (sgn, r1) := signSplit input
  let ds := r1.takeWhile isDigitC
  if ds ≠ [] then
    match r1.dropWhile isDigitC with
    | '.' :: r2 => .ok (r2.dropWhile isDigitC) (sgn ++ ds ++ '.' :: r2.takeWhile isDigitC)
    | _ => .error
  else
    match r1 with
    | '.' :: r2 =>
      let ds2 := r2.takeWhile isDigitC
      if ds2 = [] then .error
      else .ok (r2.dropWhile isDigitC) (sgn ++ '.' :: ds2)
    | _ => .error

/-- First numeric alternative inside `fn float`:
`tuple((opt(sign), digit1, exp))` — digits with a MANDATORY exponent;
a `failure` from `exp`'s `cut` propagates. -/
def floatBranch1 (input : List Char) : PRes (List Char) :=
  let (sgn, r1) := signSplit input
  let ds := r1.takeWhile isDigitC
  if ds = [] then .error
  else
    match exp (r1.dropWhile isDigitC) with
    | .ok remE consE => .ok remE (sgn ++ ds ++ consE)
    | .error => .error
    | .failure => .failure

/-- Second numeric alternative inside `fn float`: `tuple((float_num, opt(exp)))`;
nom's `opt` does NOT catch a `failure`, so a `cut` failure inside the
exponent propagates. -/
def floatBranch2 (input : List Char) : PRes (List Char) :=
  match float_num input with
  | .ok rem1 cons =>
    match exp rem1 with
    | .ok remE consE => .ok remE (cons ++ consE)
    | .error => .ok rem1 cons
    | .failure => .failure
  | .error => .error
  | .failure => .failure

/-- `fn float` from parser.rs: `alt` over, in source order, the case-insensitive
tags `inf`, `infinity`, `nan`, `-inf`, `-infinity`, then the recognized numeric
forms.  `alt` tries alternatives in order, moving on after an `error` and
aborting on a `failure`. -/
def float (input : List Char) : PRes (List Char) :=
  match tagNoCase ['i', 'n', 'f'] input with
  | .ok rem v => .ok rem v
  | _ =>
  match tagNoCase ['i', 'n', 'f', 'i', 'n', 'i', 't', 'y'] input with
  | .ok rem v => .ok rem v
  | _ =>
  match tagNoCase ['n', 'a', 'n'] input with
  | .ok rem v => .ok rem v
  | _ =>
  match tagNoCase ['-', 'i', 'n', 'f'] input with
  | .ok rem v => .ok rem v
  | _ =>
  match tagNoCase ['-', 'i', 'n', 'f', 'i', 'n', 'i', 't', 'y'] input with
  | .ok rem v => .ok rem v
  | _ =>
  match floatBranch1 input with
  | .ok rem v => .ok rem v
  | .failure => .failure
  | .error => floatBranch2 input

/-- Abstract floating-point result: the special values, or a finite value
represented by its accepted token (numeric semantics of finite floats are
not needed by any claim and are left uninterpreted). -/
inductive FVal where
  | inf
  | negInf
  | nan
  | finite (tok : List Char)
deriving DecidableEq

/-- Syntax accepted by Rust `f64::from_str` for finite values:
optional sign, then `digits [. digits?]` or `. digits`, then an optional
exponent `e|E [sign] digits`. -/
def isRustFiniteSyntax (s : List Char) : Bool :=
  let r1 := (signSplit s).2
  let ds := r1.takeWhile isDigitC
  let r2 := r1.dropWhile isDigitC
  let bodyRest : Option (List Char) :=
    if ds ≠ [] then
      match r2 with
      | '.' :: r2b => some (r2b.dropWhile isDigitC)
      | _ => some r2
    else
      match r2 with
      | '.' :: r2b =>
        if r2b.takeWhile isDigitC = [] then none else some (r2b.dropWhile isDigitC)
      | _ => none
  match bodyRest with
  | none => false
  | some r3 =>
    match r3 with
    | [] => true
    | c :: r4 =>
      if c = 'e' || c = 'E' then
        let r5 := (signSplit r4).2
        !(r5.takeWhile isDigitC = []) && (r5.dropWhile isDigitC = [])
      else false

/-- Model of Rust std `f64::from_str` (`"inf"`, `"infinity"`, `"nan"` with
optional sign are accepted case-insensitively; otherwise the finite-value
grammar).  Overflow of finite literals to infinity is not modelled: no claim
exercises it. -/
def rustParseF64 (s : List Char) : Option FVal :=
  let low := s.map lowerC
  if low = ['i', 'n', 'f'] || low = ['i', 'n', 'f', 'i', 'n', 'i', 't', 'y'] ||
      low = '+' :: ['i', 'n', 'f'] || low = '+' :: ['i', 'n', 'f', 'i', 'n', 'i', 't', 'y'] then
    some .inf
  else if low = '-' :: ['i', 'n', 'f'] || low = '-' :: ['i', 'n', 'f', 'i', 'n', 'i', 't', 'y'] then
    some .negInf
  else if low = ['n', 'a', 'n'] || low = '+' :: ['n', 'a', 'n'] || low = '-' :: ['n', 'a', 'n'] then
    some .nan
  else if isRustFiniteSyntax s then some (.finite s) else none

/-- Model of Rust std `f32::from_str`: same acceptance grammar as `f64`. -/
def rustParseF32 (s : List Char) : Option FVal := rustParseF64 s

/-- `pub fn parse_f64`: `float`, then OPTIONAL suffix `d`/`D`, then
`str::parse::<f64>` applied to the slice recognized by `float` (`map_res`). -/
def parse_f64 (input : List Char) : PRes FVal :=
  match float input with
  | .ok r1 num =>
    let r2 :=
      match r1 with
      | c :: cs => if c = 'd' || c = 'D' then cs else r1
      | [] => r1
    match rustParseF64 num with
    | some v => .ok r2 v
    | none => .error
  | .error => .error
  | .failure => .failure

/-- `pub fn parse_f32`: `float`, then MANDATORY suffix `f`/`F`, then
`str::parse::<f32>` applied to the recognized slice. -/
def parse_f32 (input : List Char) : PRes FVal :=
  match float input with
  | .ok r1 num =>
    match r1 with
    | c :: cs =>
      if c = 'f' || c = 'F' then
        match rustParseF32 num with
        | some v => .ok cs v
        | none => .error
      else .error
    | [] => .error
  | .error => .error
  | .failure => .failure

/-- Rust `usize::MAX`, the saturation bound of `usize::saturating_add`. -/
def USIZE_MAX : Nat := 2 ^ 64 - 1

/-- `Serializer::push_indent`: `self.indent.map(|i| i.saturating_add(1))`. -/
def push_indent (s : Option Nat) : Option Nat :=
  s.map (fun n => min (n + 1) USIZE_MAX)

/-- `Serializer::pop_indent`: `self.indent.map(|i| i.saturating_sub(1))`
(`Nat` subtraction saturates at zero exactly like `usize::saturating_sub`). -/
def pop_indent (s : Option Nat) : Option Nat :=
  s.map (fun n => n - 1)

/-- The digit-to-character map used by decimal formatting (`itoa`). -/
def digitChar : Nat → Char
  | 0 => '0' | 1 => '1' | 2 => '2' | 3 => '3' | 4 => '4'
  | 5 => '5' | 6 => '6' | 7 => '7' | 8 => '8' | _ => '9'

/-- Fuel-driven decimal formatting of a natural number (most significant digit
first); fuel `n + 1` always suffices for `n`. -/
def natCharsAux : Nat → Nat → List Char
  | 0, _ => []
  | fuel + 1, n =>
    if n < 10 then [digitChar n]
    else natCharsAux fuel (n / 10) ++ [digitChar (n % 10)]

/-- Canonical decimal digits of a natural number, as emitted by `itoa`. -/
def natChars (n : Nat) : List Char := natCharsAux (n + 1) n

/-- Canonical decimal form of a signed integer, as emitted by
`itoa::Buffer::format`: a `-` sign for negative values, then the digits. -/
def intChars (x : Int) : List Char :=
  (if x < 0 then ['-'] else []) ++ natChars x.natAbs

/-- `Serializer::serialize_i8` output bytes: `itoa` digits then suffix `b`. -/
def serialize_i8 (x : Int) : List Char := intChars x ++ ['b']

/-- `Serializer::serialize_i16` output bytes: `itoa` digits then suffix `s`. -/
def serialize_i16 (x : Int) : List Char := intChars x ++ ['s']

/-- `Serializer::serialize_i32` output bytes: `itoa` digits, no suffix. -/
def serialize_i32 (x : Int) : List Char := intChars x

/-- `Serializer::serialize_i64` output bytes: `itoa` digits then suffix `l`. -/
def serialize_i64 (x : Int) : List Char := intChars x ++ ['l']

/-- The byte-scanning loop of `write_escaped_str`: `i` is the current index,
`start` the beginning of the pending unescaped run, `acc` the bytes written
so far (after the opening quote); bytes other than `"` and `\` are skipped,
and on a `"` or `\` the pending run `v[start..i]` is flushed followed by the
two-byte escape.  Returns the written bytes and the final `start`. -/
def wesLoop (full : List Char) : List Char → Nat → Nat → List Char → List Char × Nat
  | [], _, start, acc => (acc, start)
  | c :: cs, i, start, acc =>
    if c ≠ '"' && c ≠ '\\' then wesLoop full cs (i + 1) start acc
    else
      let acc1 := if start < i then acc ++ (full.take i).drop start else acc
      let acc2 := acc1 ++ (if c = '"' then ['\\', '"'] else ['\\', '\\'])
      wesLoop full cs (i + 1) (i + 1) acc2

/-- The tail flush after the loop of `write_escaped_str`:
`if start != bytes.len() { write v[start..] }`. -/
def wesFinish (full : List Char) (p : List Char × Nat) : List Char :=
  p.1 ++ (if p.2 ≠ full.length then full.drop p.2 else [])

/-- `pub(crate) fn write_escaped_str` from ser/mod.rs: an opening `"`, the
scanned body with `"` and `\` escaped, the tail flush, and a closing `"`. -/
def write_escaped_str (v : List Char) : List Char :=
  '"' :: (wesFinish v (wesLoop v v 0 0 []) ++ ['"'])

/-- Per-character escaping map in the SPEC's words ("escape exactly `\"` and
`\\`; every other byte passes through unchanged"); `write_escaped_str` is
proved to refine it. -/
def escC (c : Char) : List Char :=
  if c = '"' then ['\\', '"'] else if c = '\\' then ['\\', '\\'] else [c]

/-- Result of `parse_escaped`: Rust `Cow<str>` — either a borrowed subslice
of the input or a freshly owned buffer. -/
inductive CowStr where
  | borrowed (s : List Char)
  | owned (s : List Char)
deriving DecidableEq

/-- The scanning loop of `fn parse_escaped` from parser.rs: `pos` is the index
of the current character, `start` the start of the pending clean run, `owned`
the materialized buffer (empty while no backslash has been seen), `skip` the
"previous character was a backslash" flag.  On an unescaped occurrence of the
surrounding quote it returns the remainder FROM the quote (the caller's
`delimited` consumes it) and either a borrowed prefix (`owned` still empty)
or the owned buffer with the final clean run flushed. -/
def peGo (q : Char) (full : List Char) :
    List Char → Nat → Nat → List Char → Bool → PRes CowStr
  | [], _, _, _, _ => .error
  | c :: cs, pos, start, owned, skip =>
    if skip then peGo q full cs (pos + 1) (pos + 1) (owned ++ [c]) false
    else if c = '\\' then
      peGo q full cs (pos + 1) start (owned ++ (full.take pos).drop start) true
    else if c = q then
      if owned = [] then .ok (full.drop pos) (.borrowed (full.take pos))
      else
        .ok (full.drop pos)
          (.owned (owned ++ (if start < pos then (full.take pos).drop start else [])))
    else peGo q full cs (pos + 1) start owned false

/-- `fn parse_escaped(surround)` from parser.rs, applied to the text after the
opening quote: scan for an unescaped `surround`, decoding `\X` to `X`;
reaching end of input without a closing quote is an error. -/
def parse_escaped (q : Char) (input : List Char) : PRes CowStr :=
  peGo q input input 0 0 [] false

mutual

/-- Raw quoted-string content that terminates at the NEXT unescaped quote:
the surrounding quote `q` occurs only escaped, and no backslash dangles at
the end. -/
def validRaw (q : Char) : List Char → Bool
  | [] => true
  | c :: cs => if c = '\\' then validRawAfter q cs else (c ≠ q) && validRaw q cs

/-- Companion of `validRaw` for the position right after a backslash. -/
def validRawAfter (q : Char) : List Char → Bool
  | [] => false
  | _ :: cs => validRaw q cs

end

mutual

/-- Decoding of escaped content in the SPEC's words: each `\X` becomes the
literal `X`, everything else is unchanged. -/
def unescape : List Char → List Char
  | [] => []
  | c :: cs => if c = '\\' then unescapeAfterSlash cs else c :: unescape cs

/-- Companion of `unescape` for the position right after a backslash. -/
def unescapeAfterSlash : List Char → List Char
  | [] => []
  | d :: cs => d :: unescape cs

end

/-- `struct Serializer<W>`: the bytes written to the sink so far plus the
`indent` field (`None` when pretty-printing is disabled).  The modelled sink
is an infallible byte buffer, as with `Vec<u8>`. -/
structure SerState where
  out : List Char
  indent : Option Nat
deriving DecidableEq

/-- `writer.write_all(s)`. -/
def writeS (ser : SerState) (s : List Char) : SerState :=
  { ser with out := ser.out ++ s }

/-- `Serializer::newline`: in pretty mode a newline then four spaces per
indent level; nothing in compact mode. -/
def newlineS (ser : SerState) : SerState :=
  match ser.indent with
  | some n => writeS ser ('\n' :: (List.replicate n [' ', ' ', ' ', ' ']).flatten)
  | none => ser

/-- `Serializer::push_indent` acting on the full state. -/
def pushIndentS (ser : SerState) : SerState :=
  { ser with indent := push_indent ser.indent }

/-- `Serializer::pop_indent` acting on the full state. -/
def popIndentS (ser : SerState) : SerState :=
  { ser with indent := pop_indent ser.indent }

/-- Modelled from the spec: the reserved byte-array sentinel key name.  The
crate-root module defining the three `*_ARRAY_TOKEN_STR` constants is not
under src/; the spec specifies only three distinct reserved sentinel names
(the concrete spelling is immaterial to every claim). -/
def BYTE_ARRAY_TOKEN_STR : List Char := "__fastnbt_byte_array".toList

/-- Modelled from the spec: the reserved int-array sentinel key name. -/
def INT_ARRAY_TOKEN_STR : List Char := "__fastnbt_int_array".toList

/-- Modelled from the spec: the reserved long-array sentinel key name. -/
def LONG_ARRAY_TOKEN_STR : List Char := "__fastnbt_long_array".toList

/-- The universe of serde values driving the serializer: scalars, strings,
sequences and maps (map keys already rendered to raw name bytes, as the
minimal `NameSerializer` produces). -/
inductive Value where
  | vBool (b : Bool)
  | vU8 (n : Nat)
  | vI8 (x : Int)
  | vI16 (x : Int)
  | vI32 (x : Int)
  | vI64 (x : Int)
  | vStr (s : List Char)
  | vList (xs : List Value)
  | vMap (es : List (List Char × Value))

mutual

/-- The `ser::Serializer` dispatch of `&mut Serializer<W>` from ser/mod.rs:
scalar formatting (suffix glyphs per width), minimal string escaping, and
the sequence/compound emitters for composite values. -/
def serializeValue (ser : SerState) : Value → Except (String × SerState) SerState
  | .vBool b => .ok (writeS ser (if b then "true".toList else "false".toList))
  | .vU8 n => .ok (writeS ser (natChars n ++ ['b']))
  | .vI8 x => .ok (writeS ser (serialize_i8 x))
  | .vI16 x => .ok (writeS ser (serialize_i16 x))
  | .vI32 x => .ok (writeS ser (serialize_i32 x))
  | .vI64 x => .ok (writeS ser (serialize_i64 x))
  | .vStr s => .ok (writeS ser (write_escaped_str s))
  | .vList xs => seqGo ser [] false xs
  | .vMap es => mapGo ser false false es
termination_by v => (sizeOf v, 0)

/-- `ArraySerializer` (`SerializeSeq`) from ser/mod.rs, driven to completion:
per element, `serialize_element` (on the first element `[`, push indent,
newline, the prefix; afterwards `,`; then newline and the element);
at the end of the list, `end` (`[` + prefix + `]` when no element was
written, otherwise dedent, newline, `]`).  `first` is
`ArraySerializer::first`: true once an element has been written. -/
def seqGo : SerState → List Char → Bool → List Value → Except (String × SerState) SerState
  | ser, pre, first, [] =>
    .ok (if first then writeS (newlineS (popIndentS ser)) [']']
         else writeS ser ('[' :: (pre ++ [']'])))
  | ser, pre, first, v :: vs =>
    let ser1 := if first then writeS ser [',']
      else writeS (newlineS (pushIndentS (writeS ser ['[']))) pre
    let ser2 := newlineS ser1
    match serializeValue ser2 v with
    | .ok ser3 => seqGo ser3 pre true vs
    | .error e => .error e
termination_by _ _ _ xs => (sizeOf xs, 0)

/-- Modelled from the spec: ser/array_serializer.rs is not under src/.  Per
spec §4.4/§4.5, a sentinel-keyed value is redirected into the Sequence/Array
Emitter (the `ArraySerializer` state machine above) configured with the given
non-empty prefix, its elements serialized recursively by the Serializer
Core; a value that is not a sequence has no typed-array form and errors. -/
def typedArraySer (ser : SerState) (pre : List Char) :
    Value → Except (String × SerState) SerState
  | .vList xs => seqGo ser pre false xs
  | _ => .error ("array serializer expects a sequence", ser)
termination_by v => (sizeOf v, 1)

/-- `CompoundSerializer::serialize_value` from ser/mod.rs: take the pending
key (error if none — BEFORE anything is written), write the `,` separator
and newline unless this is the first entry, then dispatch: a sentinel key
redirects the value into the typed-array emitter (`B;`/`I;`/`L;`) without
writing the key; any other key opens the compound on first use (`{`, indent,
newline), then writes the raw key name, the `:`/`: ` separator, and the
recursively-serialized value.  Returns the updated state with the new
`is_compound`/`has_first` flags. -/
def compoundSerializeValue (ser : SerState) (ic hf : Bool)
    (key : Option (List Char)) (v : Value) :
    Except (String × SerState) (SerState × Bool × Bool) :=
  match key with
  | none => .error ("serialize_value called before serialize_key", ser)
  | some name =>
    let ser1 := if hf then newlineS (writeS ser [',']) else ser
    if name = BYTE_ARRAY_TOKEN_STR then
      match typedArraySer ser1 ['B', ';'] v with
      | .ok s => .ok (s, ic, true)
      | .error e => .error e
    else if name = INT_ARRAY_TOKEN_STR then
      match typedArraySer ser1 ['I', ';'] v with
      | .ok s => .ok (s, ic, true)
      | .error e => .error e
    else if name = LONG_ARRAY_TOKEN_STR then
      match typedArraySer ser1 ['L', ';'] v with
      | .ok s => .ok (s, ic, true)
      | .error e => .error e
    else
      let ser2 := if ic then ser1 else newlineS (pushIndentS (writeS ser1 ['\x7b']))
      let ser3 := writeS ser2 name
      let ser4 := writeS ser3 (if ser3.indent.isSome then [':', ' '] else [':'])
      match serializeValue ser4 v with
      | .ok s => .ok (s, true, true)
      | .error e => .error e
termination_by (sizeOf v, 2)

/-- The `SerializeMap` driver of `CompoundSerializer`: per entry,
`serialize_key` (the minimal `NameSerializer` — its module is not under
src/ — renders the key to raw name bytes, modelled as the key itself) then
`serialize_value`; at the end, `end` (`}` after dedent and newline when the
compound was opened; the literal `{}` when no entry was received at all;
nothing otherwise). -/
def mapGo : SerState → Bool → Bool → List (List Char × Value) →
    Except (String × SerState) SerState
  | ser, ic, hf, [] =>
    .ok (if ic then writeS (newlineS (popIndentS ser)) ['\x7d']
         else if hf then ser else writeS ser ['\x7b', '\x7d'])
  | ser, ic, hf, (k, v) :: es =>
    match compoundSerializeValue ser ic hf (some k) v with
    | .ok (ser1, ic1, hf1) => mapGo ser1 ic1 hf1 es
    | .error e => .error e
termination_by _ _ _ es => (sizeOf es, 0)

end

/-- `Serializer::serialize_bytes` from ser/mod.rs:
`ArraySerializer::new("", self)` — note the EMPTY prefix — then every byte
serialized through `SerializeSeq::serialize_element` as a `u8` (decimal
digits plus `b` suffix), then `SerializeSeq::end`. -/
def serialize_bytes (ser : SerState) (bs : List Nat) :
    Except (String × SerState) SerState :=
  seqGo ser [] false (bs.map Value.vU8)

/-- Comma-joined concatenation, the SPEC's words for how array elements are
separated in compact mode. -/
def joinComma : List (List Char) → List Char
  | [] => []
  | [x] => x
  | x :: xs => x ++ ',' :: joinComma xs

/-- The typed-array prefix a sentinel key selects (spec words). -/
def tokPre (k : List Char) : List Char :=
  if k = BYTE_ARRAY_TOKEN_STR then ['B', ';']
  else if k = INT_ARRAY_TOKEN_STR then ['I', ';']
  else ['L', ';']

/-- Spec-side rendering for the amended C10: the typed-array renderings of
the values, one after another with `,` (plus pretty-mode newline) between
consecutive entries, no braces, and nothing written at the end. -/
def sentinelRender (ser : SerState) (isFirst : Bool) :
    List (List Char × Value) → Except (String × SerState) SerState
  | [] => .ok ser
  | (k, v) :: es =>
    let ser1 := if isFirst then ser else newlineS (writeS ser [','])
    match typedArraySer ser1 (tokPre k) v with
    | .ok s => sentinelRender s false es
    | .error e => .error e

end Fastsnbt

namespace Fastsnbt

/-! ### Generic list lemmas used by the span-style parsers -/

theorem takeWhile_dropWhile_append {p : Char → Bool} :
    ∀ (xs rest : List Char), (∀ c ∈ xs, p c = true) →
    (∀ c, rest.head? = some c → p c = false) →
    (xs ++ rest).takeWhile p = xs ∧ (xs ++ rest).dropWhile p = rest := by
  intro xs
  induction xs with
  | nil =>
    intro rest _ hrest
    cases rest with
    | nil => simp
    | cons c cs =>
      have hc : p c = false := hrest c rfl
      simp [List.takeWhile, List.dropWhile, hc]
  | cons x xs ih =>
    intro rest hxs hrest
    have hx : p x = true := hxs x (by simp)
    have := ih rest (fun c hc => hxs c (by simp [hc])) hrest
    simp [List.takeWhile, List.dropWhile, hx, this.1, this.2]

theorem takeWhile_nil_of_head {p : Char → Bool} (rest : List Char)
    (h : ∀ c, rest.head? = some c → p c = false) :
    rest.takeWhile p = [] ∧ rest.dropWhile p = rest := by
  have := takeWhile_dropWhile_append ([] : List Char) rest (by simp) h
  simpa using this

/-! ### Decimal formatting lemmas -/

theorem natCharsAux_irrel : ∀ f g n : Nat, n < f → n < g →
    natCharsAux f n = natCharsAux g n := by
  intro f
  induction f with
  | zero => intro g n h; omega
  | succ f ih =>
    intro g n hf hg
    cases g with
    | zero => omega
    | succ g =>
      by_cases h10 : n < 10
      · simp [natCharsAux, h10]
      · have h1 : n / 10 < f := by omega
        have h2 : n / 10 < g := by omega
        simp [natCharsAux, h10, ih g (n / 10) h1 h2]

theorem natChars_unfold (n : Nat) :
    natChars n = if n < 10 then [digitChar n]
      else natChars (n / 10) ++ [digitChar (n % 10)] := by
  by_cases h10 : n < 10
  · simp [natChars, natCharsAux, h10]
  · have : natCharsAux n (n / 10) = natCharsAux (n / 10 + 1) (n / 10) :=
      natCharsAux_irrel n (n / 10 + 1) (n / 10) (by omega) (by omega)
    simp [natChars, natCharsAux, h10, this]

theorem digitChar_toNat (d : Nat) (h : d < 10) : (digitChar d).toNat = 48 + d := by
  interval_cases d <;> decide

theorem isDigitC_digitChar (d : Nat) (h : d < 10) : isDigitC (digitChar d) = true := by
  interval_cases d <;> decide

theorem isNonzeroDigitC_digitChar (d : Nat) (h1 : 0 < d) (h2 : d < 10) :
    isNonzeroDigitC (digitChar d) = true := by
  interval_cases d <;> decide

theorem natChars_ne_nil (n : Nat) : natChars n ≠ [] := by
  rw [natChars_unfold]
  by_cases h10 : n < 10 <;> simp [h10]

theorem natChars_all_digits (n : Nat) : ∀ c ∈ natChars n, isDigitC c = true := by
  induction n using Nat.strong_induction_on with
  | _ n ih =>
    rw [natChars_unfold]
    by_cases h10 : n < 10
    · simp only [h10, if_true, List.mem_singleton]
      rintro c rfl
      exact isDigitC_digitChar n h10
    · simp only [h10, if_false, List.mem_append, List.mem_singleton]
      rintro c (hc | rfl)
      · exact ih (n / 10) (by omega) c hc
      · exact isDigitC_digitChar (n % 10) (by omega)

theorem natChars_head_nonzero (n : Nat) (h : 0 < n) :
    ∃ c cs, natChars n = c :: cs ∧ isNonzeroDigitC c = true := by
  induction n using Nat.strong_induction_on with
  | _ n ih =>
    rw [natChars_unfold]
    by_cases h10 : n < 10
    · exact ⟨digitChar n, [], by simp [h10], isNonzeroDigitC_digitChar n h h10⟩
    · obtain ⟨c, cs, hcons, hnz⟩ := ih (n / 10) (by omega) (by omega)
      exact ⟨c, cs ++ [digitChar (n % 10)], by simp [h10, hcons], hnz⟩

theorem foldl_natChars (n : Nat) : ∀ acc : Nat,
    (natChars n).foldl (fun a c => a * 10 + (c.toNat - 48)) acc
      = acc * 10 ^ (natChars n).length + n := by
  induction n using Nat.strong_induction_on with
  | _ n ih =>
    intro acc
    rw [natChars_unfold]
    by_cases h10 : n < 10
    · simp [h10, List.foldl, digitChar_toNat n h10]
    · have hrec := ih (n / 10) (by omega)
      simp only [h10, if_false, List.foldl_append, List.foldl_cons, List.foldl_nil,
        List.length_append, List.length_cons, List.length_nil]
      rw [hrec acc, digitChar_toNat (n % 10) (by omega)]
      have hpow : 10 ^ ((natChars (n / 10)).length + (0 + 1))
          = 10 ^ (natChars (n / 10)).length * 10 := by
        rw [pow_succ]
      rw [hpow]
      have hdm : 10 * (n / 10) + n % 10 = n := Nat.div_add_mod n 10
      ring_nf
      omega

theorem isDigitC_ne_signs (c : Char) (h : isDigitC c = true) :
    c ≠ '+' ∧ c ≠ '-' := by
  constructor <;> rintro rfl <;> exact absurd h (by decide)

theorem isNonzero_isDigit (c : Char) (h : isNonzeroDigitC c = true) :
    isDigitC c = true := by
  simp only [isNonzeroDigitC, Bool.and_eq_true, decide_eq_true_eq] at h
  simp only [isDigitC, Bool.and_eq_true, decide_eq_true_eq]
  omega

theorem decimal_intChars (x : Int) (rest : List Char)
    (hrest : ∀ c, rest.head? = some c → isDigitC c = false) :
    decimal (intChars x ++ rest) = .ok rest (intChars x) := by
  by_cases hx : x < 0
  · have hm : 0 < x.natAbs := by omega
    obtain ⟨c, cs, hcons, hnz⟩ := natChars_head_nonzero x.natAbs hm
    have hall : ∀ d ∈ cs, isDigitC d = true := by
      intro d hd
      exact natChars_all_digits x.natAbs d (by rw [hcons]; exact List.mem_cons_of_mem c hd)
    have hspan := takeWhile_dropWhile_append cs rest hall hrest
    simp only [intChars, hx, if_true, hcons]
    simp only [List.cons_append, List.append_assoc, List.singleton_append]
    show decimal ('-' :: (c :: (cs ++ rest))) = _
    simp [decimal, signSplit, hnz, hspan.1, hspan.2]
  · have hx' : 0 ≤ x := by omega
    by_cases h0 : x.natAbs = 0
    · have hchars : natChars x.natAbs = ['0'] := by rw [h0]; decide
      simp only [intChars, hx, if_false, hchars, List.nil_append, List.singleton_append]
      simp [decimal, signSplit, isNonzeroDigitC]
    · obtain ⟨c, cs, hcons, hnz⟩ := natChars_head_nonzero x.natAbs (by omega)
      have hall : ∀ d ∈ cs, isDigitC d = true := by
        intro d hd
        exact natChars_all_digits x.natAbs d (by rw [hcons]; exact List.mem_cons_of_mem c hd)
      have hspan := takeWhile_dropWhile_append cs rest hall hrest
      have hsigns := isDigitC_ne_signs c (isNonzero_isDigit c hnz)
      simp only [intChars, hx, if_false, hcons, List.nil_append, List.cons_append]
      simp [decimal, signSplit, hsigns.1, hsigns.2, hnz, hspan.1, hspan.2]

theorem intSignSplit_no_sign (c : Char) (cs : List Char)
    (hp : c ≠ '+') (hm : c ≠ '-') : intSignSplit (c :: cs) = (false, c :: cs) := by
  unfold intSignSplit
  split
  · rename_i heq; cases heq; exact absurd rfl hp
  · rename_i heq; cases heq; exact absurd rfl hm
  · rfl

theorem rustParseInt_intChars (lo hi x : Int) (h1 : lo ≤ x) (h2 : x ≤ hi) :
    rustParseInt lo hi (intChars x) = some x := by
  have hall := natChars_all_digits x.natAbs
  have hne := natChars_ne_nil x.natAbs
  have hfold := foldl_natChars x.natAbs 0
  rw [zero_mul, zero_add] at hfold
  by_cases hx : x < 0
  · have hv : -((x.natAbs : Nat) : Int) = x := by omega
    have hsplit : intSignSplit ('-' :: natChars x.natAbs) = (true, natChars x.natAbs) := rfl
    simp only [intChars, hx, if_true, List.singleton_append]
    show rustParseInt lo hi ('-' :: natChars x.natAbs) = some x
    simp only [rustParseInt, hsplit]
    rw [if_neg hne, if_pos (by simp only [List.all_eq_true]; exact hall)]
    simp only [hfold, if_true, hv]
    rw [if_pos (by simp [h1, h2])]
  · obtain ⟨c, cs, hcons⟩ : ∃ c cs, natChars x.natAbs = c :: cs := by
      cases h : natChars x.natAbs with
      | nil => exact absurd h hne
      | cons c cs => exact ⟨c, cs, rfl⟩
    have hsigns := isDigitC_ne_signs c (hall c (by rw [hcons]; simp))
    have hv : ((x.natAbs : Nat) : Int) = x := by omega
    have hsplit := intSignSplit_no_sign c cs hsigns.1 hsigns.2
    simp only [intChars, hx, if_false, List.nil_append, hcons]
    simp only [rustParseInt, hsplit]
    rw [if_neg (by simp), if_pos (by simp only [List.all_eq_true]; rw [← hcons]; exact hall)]
    rw [← hcons]
    simp only [hfold, Bool.false_eq_true, if_false, hv]
    rw [if_pos (by simp [h1, h2])]

/-- C8: the decimal grammar never consumes redundant leading zeros: on any
input starting with `0`, `decimal` consumes exactly that single `0`, and
`parse_i32 "007"` succeeds with value `0` leaving `"07"` unconsumed. -/
theorem decimal_no_leading_zeros :
    (∀ rest : List Char, decimal ('0' :: rest) = .ok rest ['0']) ∧
    parse_i32 "007".toList = .ok "07".toList 0 := by
  constructor
  · intro rest
    simp [decimal, signSplit, isNonzeroDigitC]
  · decide

/-- C9: the serializer's indentation depth never goes negative: decrementing
at zero saturates to zero, and when pretty-printing is disabled (`none`)
both `push_indent` and `pop_indent` leave the depth absent. -/
theorem indent_depth_saturates :
    pop_indent (some 0) = some 0 ∧ (∀ n, pop_indent (some n) = some (n - 1)) ∧
    push_indent none = none ∧ pop_indent none = none :=
  ⟨rfl, fun _ => rfl, rfl, rfl⟩

/-- C3: for each width N ∈ {8,16,32,64} and every in-range signed integer x,
parsing the serialization of x with the matching parser succeeds, returns x,
and leaves an empty remainder; and the emitted suffix matches N exactly
(`b`, `s`, no suffix character — the output ends in a digit — and `l`). -/
theorem int_roundtrip (x : Int) :
    (-(2 ^ 7) ≤ x → x ≤ 2 ^ 7 - 1 → parse_i8 (serialize_i8 x) = .ok [] x) ∧
    (-(2 ^ 15) ≤ x → x ≤ 2 ^ 15 - 1 → parse_i16 (serialize_i16 x) = .ok [] x) ∧
    (-(2 ^ 31) ≤ x → x ≤ 2 ^ 31 - 1 → parse_i32 (serialize_i32 x) = .ok [] x) ∧
    (-(2 ^ 63) ≤ x → x ≤ 2 ^ 63 - 1 → parse_i64 (serialize_i64 x) = .ok [] x) ∧
    (serialize_i8 x).getLast? = some 'b' ∧
    (serialize_i16 x).getLast? = some 's' ∧
    (serialize_i64 x).getLast? = some 'l' ∧
    (∃ c, (serialize_i32 x).getLast? = some c ∧ isDigitC c = true) := by
  refine ⟨?_, ?_, ?_, ?_, ?_, ?_, ?_, ?_⟩
  · intro h1 h2
    have hdec := decimal_intChars x ['b'] (by intro c hc; cases hc; decide)
    have hp := rustParseInt_intChars (-(2 ^ 7)) (2 ^ 7 - 1) x h1 h2
    norm_num at hp
    simp [parse_i8, serialize_i8, hdec, hp]
  · intro h1 h2
    have hdec := decimal_intChars x ['s'] (by intro c hc; cases hc; decide)
    have hp := rustParseInt_intChars (-(2 ^ 15)) (2 ^ 15 - 1) x h1 h2
    norm_num at hp
    simp [parse_i16, serialize_i16, hdec, hp]
  · intro h1 h2
    have hdec := decimal_intChars x [] (by intro c hc; cases hc)
    rw [List.append_nil] at hdec
    have hp := rustParseInt_intChars (-(2 ^ 31)) (2 ^ 31 - 1) x h1 h2
    norm_num at hp
    simp [parse_i32, serialize_i32, hdec, hp]
  · intro h1 h2
    have hdec := decimal_intChars x ['l'] (by intro c hc; cases hc; decide)
    have hp := rustParseInt_intChars (-(2 ^ 63)) (2 ^ 63 - 1) x h1 h2
    norm_num at hp
    simp [parse_i64, serialize_i64, hdec, hp]
  · simp [serialize_i8]
  · simp [serialize_i16]
  · simp [serialize_i64]
  · have hne : natChars x.natAbs ≠ [] := natChars_ne_nil _
    have hd := List.getLast?_eq_getLast_of_ne_nil hne
    refine ⟨(natChars x.natAbs).getLast hne, ?_, ?_⟩
    · simp only [serialize_i32, intChars]
      rw [List.getLast?_append_of_ne_nil _ hne, hd]
    · exact natChars_all_digits x.natAbs _ (List.getLast_mem hne)

/-- Witness for C3: the round-trip and suffix facts at the concrete input 3. -/
theorem int_roundtrip_witness :
    parse_i8 (serialize_i8 3) = .ok [] 3 ∧ (serialize_i8 3).getLast? = some 'b' :=
  ⟨(int_roundtrip 3).1 (by decide) (by decide), (int_roundtrip 3).2.2.2.2.1⟩

/-! ### Float-grammar lemmas -/

theorem lowerC_digit (c : Char) (h : isDigitC c = true) : lowerC c = c := by
  simp only [isDigitC, Bool.and_eq_true, decide_eq_true_eq] at h
  unfold lowerC
  rw [if_neg]
  simp only [Bool.and_eq_true, decide_eq_true_eq, not_and]
  omega

theorem ne_of_isDigitC (c d : Char) (hc : isDigitC c = true) (hd : isDigitC d = false) :
    c ≠ d := by
  rintro rfl
  rw [hc] at hd
  cases hd

theorem signSplit_sign (c : Char) (cs : List Char) (h : c = '+' ∨ c = '-') :
    signSplit (c :: cs) = ([c], cs) := by
  rcases h with rfl | rfl <;> rfl

theorem signSplit_nosign (l : List Char)
    (h : ∀ c, l.head? = some c → c ≠ '+' ∧ c ≠ '-') : signSplit l = ([], l) := by
  cases l with
  | nil => rfl
  | cons c cs =>
    have hc := h c rfl
    simp [signSplit, hc.1, hc.2]

theorem tagNoCase_error_head (t0 : Char) (t : List Char) (c : Char) (l : List Char)
    (h : lowerC c ≠ lowerC t0) : tagNoCase (t0 :: t) (c :: l) = .error := by
  unfold tagNoCase
  rw [if_neg]
  intro heq
  rw [List.length_cons, List.take_succ_cons, List.map_cons, List.map_cons] at heq
  exact h (List.head_eq_of_cons_eq heq)

theorem tagNoCase_error_second (t0 t1 : Char) (t : List Char) (c0 c1 : Char)
    (l : List Char) (h : lowerC c1 ≠ lowerC t1) :
    tagNoCase (t0 :: t1 :: t) (c0 :: c1 :: l) = .error := by
  unfold tagNoCase
  rw [if_neg]
  intro heq
  rw [List.length_cons, List.length_cons, List.take_succ_cons, List.take_succ_cons,
    List.map_cons, List.map_cons, List.map_cons, List.map_cons] at heq
  exact h (List.head_eq_of_cons_eq (List.tail_eq_of_cons_eq heq))

theorem five_tags_error (sgn : List Char) (d0 : Char) (tl : List Char)
    (hsgn : sgn = [] ∨ sgn = ['+'] ∨ sgn = ['-']) (hd0 : isDigitC d0 = true) :
    tagNoCase ['i', 'n', 'f'] (sgn ++ d0 :: tl) = .error ∧
    tagNoCase ['i', 'n', 'f', 'i', 'n', 'i', 't', 'y'] (sgn ++ d0 :: tl) = .error ∧
    tagNoCase ['n', 'a', 'n'] (sgn ++ d0 :: tl) = .error ∧
    tagNoCase ['-', 'i', 'n', 'f'] (sgn ++ d0 :: tl) = .error ∧
    tagNoCase ['-', 'i', 'n', 'f', 'i', 'n', 'i', 't', 'y'] (sgn ++ d0 :: tl) = .error := by
  have hlow : lowerC d0 = d0 := lowerC_digit d0 hd0
  have hne_i : d0 ≠ 'i' := ne_of_isDigitC d0 'i' hd0 (by decide)
  have hne_n : d0 ≠ 'n' := ne_of_isDigitC d0 'n' hd0 (by decide)
  have hne_m : d0 ≠ '-' := ne_of_isDigitC d0 '-' hd0 (by decide)
  rcases hsgn with rfl | rfl | rfl
  · refine ⟨?_, ?_, ?_, ?_, ?_⟩ <;>
      exact tagNoCase_error_head _ _ _ _ (by rw [hlow]; first
        | exact (by simpa using hne_i) | exact (by simpa using hne_n)
        | exact (by simpa using hne_m))
  · refine ⟨?_, ?_, ?_, ?_, ?_⟩ <;>
      exact tagNoCase_error_head _ _ _ _ (by decide)
  · refine ⟨tagNoCase_error_head _ _ _ _ (by decide),
      tagNoCase_error_head _ _ _ _ (by decide),
      tagNoCase_error_head _ _ _ _ (by decide),
      tagNoCase_error_second _ _ _ _ _ _ ?_,
      tagNoCase_error_second _ _ _ _ _ _ ?_⟩ <;>
    · rw [hlow]; simpa using hne_i

theorem exp_failure (ec : Char) (esgn rest : List Char)
    (hec : ec = 'e' ∨ ec = 'E')
    (hesgn : esgn = [] ∨ esgn = ['+'] ∨ esgn = ['-'])
    (hrest : ∀ c, rest.head? = some c → isDigitC c = false ∧ c ≠ '+' ∧ c ≠ '-') :
    exp (ec :: (esgn ++ rest)) = .failure := by
  have hsplit : signSplit (esgn ++ rest) = (esgn, rest) := by
    rcases hesgn with rfl | rfl | rfl
    · rw [List.nil_append]
      exact signSplit_nosign rest (fun c hc => (hrest c hc).2)
    · exact signSplit_sign _ _ (Or.inl rfl)
    · exact signSplit_sign _ _ (Or.inr rfl)
  have htake := takeWhile_nil_of_head rest (fun c hc => (hrest c hc).1)
  have hcond : (ec = 'e' || ec = 'E') = true := by rcases hec with rfl | rfl <;> decide
  simp only [exp, hcond, if_true, hsplit, htake.1, if_pos rfl]

theorem exp_error_dot (cs : List Char) : exp ('.' :: cs) = .error := by
  simp [exp]

theorem floatBranch1_failA (sgn ds : List Char) (ec : Char) (esgn rest : List Char)
    (hsgn : sgn = [] ∨ sgn = ['+'] ∨ sgn = ['-'])
    (hds : ds ≠ []) (hdsall : ∀ c ∈ ds, isDigitC c = true)
    (hec : ec = 'e' ∨ ec = 'E')
    (hesgn : esgn = [] ∨ esgn = ['+'] ∨ esgn = ['-'])
    (hrest : ∀ c, rest.head? = some c → isDigitC c = false ∧ c ≠ '+' ∧ c ≠ '-') :
    floatBranch1 (sgn ++ (ds ++ ec :: (esgn ++ rest))) = .failure := by
  obtain ⟨d0, ds', rfl⟩ : ∃ d0 ds', ds = d0 :: ds' := by
    cases ds with
    | nil => exact absurd rfl hds
    | cons d0 ds' => exact ⟨d0, ds', rfl⟩
  have hsplit : signSplit (sgn ++ ((d0 :: ds') ++ ec :: (esgn ++ rest)))
      = (sgn, (d0 :: ds') ++ ec :: (esgn ++ rest)) := by
    rcases hsgn with rfl | rfl | rfl
    · rw [List.nil_append]
      refine signSplit_nosign _ ?_
      intro c hc
      rw [List.cons_append, List.head?_cons, Option.some.injEq] at hc
      subst hc
      exact isDigitC_ne_signs d0 (hdsall d0 (by simp))
    · exact signSplit_sign _ _ (Or.inl rfl)
    · exact signSplit_sign _ _ (Or.inr rfl)
  have hecd : isDigitC ec = false := by rcases hec with rfl | rfl <;> decide
  have hspan := takeWhile_dropWhile_append (d0 :: ds') (ec :: (esgn ++ rest)) hdsall
    (by intro c hc; rw [List.head?_cons, Option.some.injEq] at hc; subst hc; exact hecd)
  have hexp := exp_failure ec esgn rest hec hesgn hrest
  simp only [floatBranch1, hsplit, hspan.1, hspan.2, hexp]
  simp

theorem floatBranch1_errB (sgn ds : List Char) (tl : List Char)
    (hsgn : sgn = [] ∨ sgn = ['+'] ∨ sgn = ['-'])
    (hds : ds ≠ []) (hdsall : ∀ c ∈ ds, isDigitC c = true) :
    floatBranch1 (sgn ++ (ds ++ '.' :: tl)) = .error := by
  obtain ⟨d0, ds', rfl⟩ : ∃ d0 ds', ds = d0 :: ds' := by
    cases ds with
    | nil => exact absurd rfl hds
    | cons d0 ds' => exact ⟨d0, ds', rfl⟩
  have hsplit : signSplit (sgn ++ ((d0 :: ds') ++ '.' :: tl))
      = (sgn, (d0 :: ds') ++ '.' :: tl) := by
    rcases hsgn with rfl | rfl | rfl
    · rw [List.nil_append]
      refine signSplit_nosign _ ?_
      intro c hc
      rw [List.cons_append, List.head?_cons, Option.some.injEq] at hc
      subst hc
      exact isDigitC_ne_signs d0 (hdsall d0 (by simp))
    · exact signSplit_sign _ _ (Or.inl rfl)
    · exact signSplit_sign _ _ (Or.inr rfl)
  have hspan := takeWhile_dropWhile_append (d0 :: ds') ('.' :: tl) hdsall
    (by intro c hc; rw [List.head?_cons, Option.some.injEq] at hc; subst hc; decide)
  simp only [floatBranch1, hsplit, hspan.1, hspan.2, exp_error_dot]
  simp

theorem float_num_okB (sgn ds ds2 : List Char) (ec : Char) (tl : List Char)
    (hsgn : sgn = [] ∨ sgn = ['+'] ∨ sgn = ['-'])
    (hds : ds ≠ []) (hdsall : ∀ c ∈ ds, isDigitC c = true)
    (hds2all : ∀ c ∈ ds2, isDigitC c = true)
    (hec : isDigitC ec = false) :
    float_num (sgn ++ (ds ++ '.' :: (ds2 ++ ec :: tl)))
      = .ok (ec :: tl) (sgn ++ ds ++ '.' :: ds2) := by
  obtain ⟨d0, ds', rfl⟩ : ∃ d0 ds', ds = d0 :: ds' := by
    cases ds with
    | nil => exact absurd rfl hds
    | cons d0 ds' => exact ⟨d0, ds', rfl⟩
  have hsplit : signSplit (sgn ++ ((d0 :: ds') ++ '.' :: (ds2 ++ ec :: tl)))
      = (sgn, (d0 :: ds') ++ '.' :: (ds2 ++ ec :: tl)) := by
    rcases hsgn with rfl | rfl | rfl
    · rw [List.nil_append]
      refine signSplit_nosign _ ?_
      intro c hc
      rw [List.cons_append, List.head?_cons, Option.some.injEq] at hc
      subst hc
      exact isDigitC_ne_signs d0 (hdsall d0 (by simp))
    · exact signSplit_sign _ _ (Or.inl rfl)
    · exact signSplit_sign _ _ (Or.inr rfl)
  have hspan := takeWhile_dropWhile_append (d0 :: ds') ('.' :: (ds2 ++ ec :: tl)) hdsall
    (by intro c hc; rw [List.head?_cons, Option.some.injEq] at hc; subst hc; decide)
  have hspan2 := takeWhile_dropWhile_append ds2 (ec :: tl) hds2all
    (by intro c hc; rw [List.head?_cons, Option.some.injEq] at hc; subst hc; exact hec)
  simp only [float_num, hsplit, hspan.1, hspan.2, hspan2.1, hspan2.2]
  simp

/-- C7: a valid float body followed by `e`/`E` and an optional sign but no
exponent digit is a hard parse failure for both `parse_f32` and `parse_f64`
(nom's `cut` makes it a `failure`, so no alternative falls back to parsing
the digits before the `e`).  Covers both body shapes: plain digits
(e.g. `1e`) and fractional (e.g. `1.5e+`). -/
theorem malformed_exponent_hard_failure (sgn ds ds2 : List Char) (ec : Char)
    (esgn rest : List Char)
    (hsgn : sgn = [] ∨ sgn = ['+'] ∨ sgn = ['-'])
    (hds : ds ≠ []) (hdsall : ∀ c ∈ ds, isDigitC c = true)
    (hds2all : ∀ c ∈ ds2, isDigitC c = true)
    (hec : ec = 'e' ∨ ec = 'E')
    (hesgn : esgn = [] ∨ esgn = ['+'] ∨ esgn = ['-'])
    (hrest : ∀ c, rest.head? = some c → isDigitC c = false ∧ c ≠ '+' ∧ c ≠ '-') :
    parse_f64 (sgn ++ (ds ++ ec :: (esgn ++ rest))) = .failure ∧
    parse_f32 (sgn ++ (ds ++ ec :: (esgn ++ rest))) = .failure ∧
    parse_f64 (sgn ++ (ds ++ '.' :: (ds2 ++ ec :: (esgn ++ rest)))) = .failure ∧
    parse_f32 (sgn ++ (ds ++ '.' :: (ds2 ++ ec :: (esgn ++ rest)))) = .failure := by
  obtain ⟨d0, ds', hds0⟩ : ∃ d0 ds', ds = d0 :: ds' := by
    cases ds with
    | nil => exact absurd rfl hds
    | cons d0 ds' => exact ⟨d0, ds', rfl⟩
  have hd0 : isDigitC d0 = true := hdsall d0 (by rw [hds0]; simp)
  have hecd : isDigitC ec = false := by rcases hec with rfl | rfl <;> decide
  have hfloatA : float (sgn ++ (ds ++ ec :: (esgn ++ rest))) = .failure := by
    have htags := five_tags_error sgn d0 (ds' ++ ec :: (esgn ++ rest)) hsgn hd0
    rw [← List.cons_append, ← hds0] at htags
    have hb1 := floatBranch1_failA sgn ds ec esgn rest hsgn hds hdsall hec hesgn hrest
    simp only [float, htags.1, htags.2.1, htags.2.2.1, htags.2.2.2.1, htags.2.2.2.2, hb1]
  have hfloatB : float (sgn ++ (ds ++ '.' :: (ds2 ++ ec :: (esgn ++ rest)))) = .failure := by
    have htags := five_tags_error sgn d0 (ds' ++ '.' :: (ds2 ++ ec :: (esgn ++ rest))) hsgn hd0
    rw [← List.cons_append, ← hds0] at htags
    have hb1 := floatBranch1_errB sgn ds (ds2 ++ ec :: (esgn ++ rest)) hsgn hds hdsall
    have hfn := float_num_okB sgn ds ds2 ec (esgn ++ rest) hsgn hds hdsall hds2all hecd
    have hexp := exp_failure ec esgn rest hec hesgn hrest
    simp only [float, htags.1, htags.2.1, htags.2.2.1, htags.2.2.2.1, htags.2.2.2.2, hb1,
      floatBranch2, hfn, hexp]
  exact ⟨by simp [parse_f64, hfloatA], by simp [parse_f32, hfloatA],
    by simp [parse_f64, hfloatB], by simp [parse_f32, hfloatB]⟩

/-- Witness for C7: the concrete malformed inputs `1e` and `1.5e+` hard-fail. -/
theorem malformed_exponent_witness :
    parse_f64 ['1', 'e'] = .failure ∧ parse_f64 ['1', '.', '5', 'e', '+'] = .failure := by
  have h1 := malformed_exponent_hard_failure [] ['1'] [] 'e' [] []
    (Or.inl rfl) (by decide) (by decide) (by decide) (Or.inl rfl) (Or.inl rfl)
    (by intro c hc; cases hc)
  have h2 := malformed_exponent_hard_failure [] ['1'] ['5'] 'e' ['+'] []
    (Or.inl rfl) (by decide) (by decide) (by decide) (Or.inl rfl) (Or.inr (Or.inl rfl))
    (by intro c hc; cases hc)
  exact ⟨h1.1, h2.2.2.1⟩

/-! ### String-escaping lemmas -/

theorem take_drop_comm (l : List Char) (a k : Nat) :
    (l.take (a + k)).drop a = (l.drop a).take k := by
  rw [List.drop_take]
  congr 1
  omega

theorem slice_run (full run tail2 : List Char) (start : Nat)
    (h : full.drop start = run ++ tail2) :
    (full.take (start + run.length)).drop start = run := by
  rw [take_drop_comm, h, List.take_left]

theorem drop_shift (full run tail2 : List Char) (start : Nat)
    (h : full.drop start = run ++ tail2) :
    full.drop (start + run.length) = tail2 := by
  rw [← List.drop_drop, h, List.drop_left]

theorem wesLoop_spec (full : List Char) :
    ∀ (rest run : List Char) (start : Nat) (acc : List Char),
    full.drop start = run ++ rest →
    (∀ c ∈ run, c ≠ '"' ∧ c ≠ '\\') →
    wesFinish full (wesLoop full rest (start + run.length) start acc)
      = acc ++ run ++ (rest.map escC).flatten := by
  intro rest
  induction rest with
  | nil =>
    intro run start acc h hrun
    rw [List.append_nil] at h
    simp only [wesLoop, wesFinish, List.map_nil, List.flatten_nil, List.append_nil]
    by_cases hs : start = full.length
    · have hrn : run = [] := by rw [← h, hs, List.drop_length]
      simp [hs, hrn]
    · rw [if_pos hs, h]
  | cons c cs ih =>
    intro run start acc h hrun
    by_cases hc : (c ≠ '"' && c ≠ '\\') = true
    · have hcc : c ≠ '"' ∧ c ≠ '\\' := by simpa using hc
      have h' : full.drop start = (run ++ [c]) ++ cs := by rw [h]; simp
      have hlen : start + run.length + 1 = start + (run ++ [c]).length := by
        simp [List.length_append]
        omega
      have hstep := ih (run ++ [c]) start acc h' (by
        intro d hd
        rcases List.mem_append.1 hd with h1 | h2
        · exact hrun d h1
        · rw [List.mem_singleton] at h2; subst h2; exact hcc)
      have hesc : escC c = [c] := by simp [escC, hcc.1, hcc.2]
      simp only [wesLoop, hc, if_true]
      rw [hlen, hstep]
      simp [hesc, List.append_assoc]
    · have hcc : c = '"' ∨ c = '\\' := by
        have hn : ¬(c ≠ '"' ∧ c ≠ '\\') := by simpa using hc
        by_cases h1 : c = '"'
        · exact Or.inl h1
        · right; by_contra h2; exact hn ⟨h1, h2⟩
      have hflush : (if start < start + run.length
          then acc ++ (full.take (start + run.length)).drop start else acc)
          = acc ++ run := by
        by_cases hr : run = []
        · subst hr; simp
        · have hlt : start < start + run.length := by
            have := List.length_pos.2 hr; omega
          rw [if_pos hlt, slice_run full run (c :: cs) start h]
      have hesc2 : (if c = '"' then ['\\', '"'] else ['\\', '\\']) = escC c := by
        rcases hcc with rfl | rfl <;> simp [escC]
      have hdrop1 : full.drop (start + run.length + 1) = cs := by
        have := drop_shift full (run ++ [c]) cs start (by rw [h]; simp)
        rw [List.length_append, List.length_singleton, ← Nat.add_assoc] at this
        exact this
      have hrec := ih [] (start + run.length + 1) (acc ++ run ++ escC c)
        (by simpa using hdrop1) (by simp)
      simp only [wesLoop, hc, if_false]
      rw [hflush, hesc2]
      simpa [List.append_assoc] using hrec

/-- C5: for every input string v, `write_escaped_str` writes exactly a double
quote, then v with each `"` replaced by `\"`, each `\` replaced by `\\`, and
every other character (control characters included) passed through unchanged,
then a closing double quote. -/
theorem write_escaped_str_escapes (v : List Char) :
    write_escaped_str v = '"' :: ((v.map escC).flatten ++ ['"']) := by
  have h := wesLoop_spec v v [] 0 [] (by simp) (by simp)
  simp only [List.length_nil, Nat.add_zero, List.nil_append] at h
  unfold write_escaped_str
  rw [h]

/-! ### Unescape-engine lemmas -/

theorem peGo_cons (q : Char) (full : List Char) (c : Char) (cs : List Char)
    (pos start : Nat) (owned : List Char) (skip : Bool) :
    peGo q full (c :: cs) pos start owned skip
      = if skip then peGo q full cs (pos + 1) (pos + 1) (owned ++ [c]) false
        else if c = '\\' then
          peGo q full cs (pos + 1) start (owned ++ (full.take pos).drop start) true
        else if c = q then
          if owned = [] then .ok (full.drop pos) (.borrowed (full.take pos))
          else
            .ok (full.drop pos)
              (.owned (owned ++ (if start < pos then (full.take pos).drop start else [])))
        else peGo q full cs (pos + 1) start owned false := rfl

theorem peGo_clean_walk (q : Char) (full : List Char) :
    ∀ (rem : List Char) (pos : Nat) (sfx : List Char),
    full.drop pos = rem ++ sfx →
    (∀ c ∈ rem, c ≠ '\\' ∧ c ≠ q) →
    peGo q full (rem ++ sfx) pos 0 [] false
      = peGo q full sfx (pos + rem.length) 0 [] false := by
  intro rem
  induction rem with
  | nil => intro pos sfx _ _; simp
  | cons c cs ih =>
    intro pos sfx h hr
    have hc := hr c (by simp)
    have hdrop : full.drop (pos + 1) = cs ++ sfx := by
      have := drop_shift full [c] (cs ++ sfx) pos (by simpa using h)
      simpa using this
    have hstep := ih (pos + 1) sfx hdrop (fun d hd => hr d (by simp [hd]))
    show peGo q full (c :: (cs ++ sfx)) pos 0 [] false = _
    rw [peGo_cons, if_neg (by simp : ¬(false = true)), if_neg hc.1, if_neg hc.2, hstep]
    congr 1
    simp [List.length_cons]
    omega

theorem peGo_dirty (q : Char) (hqb : q ≠ '\\') (full : List Char) :
    ∀ (n : Nat) (rawRem : List Char), rawRem.length ≤ n →
    ∀ (run : List Char) (start : Nat) (owned : List Char) (tl : List Char),
    full.drop start = run ++ rawRem ++ q :: tl →
    validRaw q rawRem = true →
    (∀ c ∈ run, c ≠ '\\' ∧ c ≠ q) →
    owned ≠ [] →
    peGo q full (rawRem ++ q :: tl) (start + run.length) start owned false
      = .ok (full.drop (start + run.length + rawRem.length))
            (.owned (owned ++ run ++ unescape rawRem)) := by
  have base : ∀ (run : List Char) (start : Nat) (owned : List Char) (tl : List Char),
      full.drop start = run ++ q :: tl →
      (∀ c ∈ run, c ≠ '\\' ∧ c ≠ q) → owned ≠ [] →
      peGo q full (q :: tl) (start + run.length) start owned false
        = .ok (full.drop (start + run.length)) (.owned (owned ++ run)) := by
    intro run start owned tl h _ howned
    rw [peGo_cons, if_neg (by simp : ¬(false = true)), if_neg hqb, if_pos rfl,
      if_neg howned]
    by_cases hr : run = []
    · subst hr
      simp
    · have hlt : start < start + run.length := by
        have := List.length_pos.2 hr; omega
      rw [if_pos hlt, slice_run full run (q :: tl) start h]
  intro n
  induction n with
  | zero =>
    intro rawRem hlen run start owned tl h hv hrun howned
    have hr0 : rawRem = [] := List.length_eq_zero.1 (by omega)
    subst hr0
    simp only [List.append_nil] at h
    have := base run start owned tl h hrun howned
    simpa [unescape] using this
  | succ n ih =>
    intro rawRem hlen run start owned tl h hv hrun howned
    cases rawRem with
    | nil =>
      simp only [List.append_nil] at h
      have := base run start owned tl h hrun howned
      simpa [unescape] using this
    | cons c cs =>
      by_cases hcb : c = '\\'
      · subst hcb
        rw [show validRaw q ('\\' :: cs) = validRawAfter q cs by simp [validRaw]] at hv
        cases cs with
        | nil => exact absurd hv (by simp [validRawAfter])
        | cons d cs' =>
          have hv' : validRaw q cs' = true := by simpa [validRawAfter] using hv
          have hslice : (full.take (start + run.length)).drop start = run :=
            slice_run full run (('\\' :: d :: cs') ++ q :: tl) start (by
              rw [h]; simp)
          have hdrop2 : full.drop (start + run.length + 2) = cs' ++ q :: tl := by
            have := drop_shift full (run ++ ['\\', d]) (cs' ++ q :: tl) start (by
              rw [h]; simp)
            rw [List.length_append] at this
            simpa [Nat.add_assoc] using this
          have hrec := ih cs' (by simp at hlen; omega) [] (start + run.length + 2)
            (owned ++ run ++ [d]) tl (by simpa using hdrop2) hv' (by simp)
            (by simp)
          simp only [List.length_nil, Nat.add_zero] at hrec
          show peGo q full ('\\' :: ((d :: cs') ++ q :: tl))
            (start + run.length) start owned false = _
          rw [peGo_cons, if_neg (by simp : ¬(false = true)), if_pos rfl, hslice]
          show peGo q full (d :: (cs' ++ q :: tl))
            (start + run.length + 1) start (owned ++ run) true = _
          rw [peGo_cons, if_pos rfl]
          rw [show start + run.length + 1 + 1 = start + run.length + 2 by omega, hrec]
          have hun : unescape ('\\' :: d :: cs') = d :: unescape cs' := by
            simp [unescape, unescapeAfterSlash]
          rw [hun]
          congr 2
          · simp [List.length_cons]
            omega
          · simp
      · have hv2 : c ≠ q ∧ validRaw q cs = true := by
          rw [show validRaw q (c :: cs)
            = (if c = '\\' then validRawAfter q cs else (decide (c ≠ q) && validRaw q cs))
            by simp [validRaw], if_neg hcb] at hv
          simp only [Bool.and_eq_true, decide_eq_true_eq] at hv
          exact hv
        have hrec := ih cs (by simp at hlen; omega) (run ++ [c]) start owned tl
          (by rw [h]; simp) hv2.2
          (by
            intro e he
            rcases List.mem_append.1 he with h1 | h2
            · exact hrun e h1
            · rw [List.mem_singleton] at h2; subst h2; exact ⟨hcb, hv2.1⟩)
          howned
        rw [List.length_append, List.length_singleton] at hrec
        show peGo q full (c :: (cs ++ q :: tl)) (start + run.length) start owned false = _
        rw [peGo_cons, if_neg (by simp : ¬(false = true)), if_neg hcb, if_neg hv2.1]
        rw [show start + run.length + 1 = start + (run.length + 1) by omega, hrec]
        have hun : unescape (c :: cs) = c :: unescape cs := by
          simp [unescape, hcb]
        rw [hun]
        congr 2
        · simp [List.length_cons]
          omega
        · simp

theorem validRaw_clean (q : Char) :
    ∀ raw : List Char, validRaw q raw = true → '\\' ∉ raw →
    ∀ c ∈ raw, c ≠ '\\' ∧ c ≠ q := by
  intro raw
  induction raw with
  | nil => intro _ _ c hc; cases hc
  | cons c cs ih =>
    intro hv hnb d hd
    have hcb : c ≠ '\\' := fun he => hnb (by rw [he]; simp)
    rw [show validRaw q (c :: cs)
      = (if c = '\\' then validRawAfter q cs else (decide (c ≠ q) && validRaw q cs))
      by simp [validRaw], if_neg hcb] at hv
    simp only [Bool.and_eq_true, decide_eq_true_eq] at hv
    rcases List.mem_cons.1 hd with rfl | hd'
    · exact ⟨hcb, hv.1⟩
    · exact ih hv.2 (fun he => hnb (List.mem_cons_of_mem c he)) d hd'

theorem split_first_backslash (q : Char) :
    ∀ raw : List Char, validRaw q raw = true → '\\' ∈ raw →
    ∃ pre d raw2, raw = pre ++ '\\' :: d :: raw2 ∧
      (∀ c ∈ pre, c ≠ '\\' ∧ c ≠ q) ∧ validRaw q raw2 = true := by
  intro raw
  induction raw with
  | nil => intro _ hb; cases hb
  | cons c cs ih =>
    intro hv hb
    by_cases hc : c = '\\'
    · subst hc
      rw [show validRaw q ('\\' :: cs) = validRawAfter q cs by simp [validRaw]] at hv
      cases cs with
      | nil => exact absurd hv (by simp [validRawAfter])
      | cons d cs' =>
        have hv' : validRaw q cs' = true := by simpa [validRawAfter] using hv
        exact ⟨[], d, cs', by simp, by simp, hv'⟩
    · rw [show validRaw q (c :: cs)
        = (if c = '\\' then validRawAfter q cs else (decide (c ≠ q) && validRaw q cs))
        by simp [validRaw], if_neg hc] at hv
      simp only [Bool.and_eq_true, decide_eq_true_eq] at hv
      have hb' : '\\' ∈ cs := by
        rcases List.mem_cons.1 hb with h1 | h2
        · exact absurd h1.symm hc
        · exact h2
      obtain ⟨pre, d, raw2, heq, hpre, hv2⟩ := ih hv.2 hb'
      refine ⟨c :: pre, d, raw2, by rw [heq]; rfl, ?_, hv2⟩
      intro e he
      rcases List.mem_cons.1 he with rfl | he'
      · exact ⟨hc, hv.1⟩
      · exact hpre e he'

theorem unescape_clean_prefix :
    ∀ (pre t : List Char), (∀ c ∈ pre, c ≠ '\\') →
    unescape (pre ++ t) = pre ++ unescape t := by
  intro pre
  induction pre with
  | nil => intro t _; simp
  | cons c cs ih =>
    intro t h
    have hc : c ≠ '\\' := h c (by simp)
    rw [List.cons_append]
    simp only [unescape, hc, if_false]
    rw [ih t (fun d hd => h d (by simp [hd]))]
    rfl

/-- C4: for every valid quoted-string content, `parse_escaped` succeeds,
leaves the remainder at the closing quote, and returns the Borrowed
(zero-copy subslice of the input) variant if and only if the content
contains no backslash; when a backslash is present the result is an Owned
buffer whose content is the input with each `\X` decoded to the literal
`X`. -/
theorem parse_escaped_borrow_iff (q : Char) (raw tl : List Char)
    (hq : q = '"' ∨ q = '\'') (hv : validRaw q raw = true) :
    parse_escaped q (raw ++ q :: tl)
      = .ok (q :: tl)
          (if '\\' ∈ raw then .owned (unescape raw) else .borrowed raw) := by
  have hqb : q ≠ '\\' := by rcases hq with rfl | rfl <;> decide
  by_cases hb : '\\' ∈ raw
  · obtain ⟨pre, d, raw2, hsplit, hpre, hv2⟩ := split_first_backslash q raw hv hb
    rw [if_pos hb]
    have hfull : raw ++ q :: tl = pre ++ ('\\' :: (d :: (raw2 ++ q :: tl))) := by
      rw [hsplit]; simp
    show peGo q (raw ++ q :: tl) (raw ++ q :: tl) 0 0 [] false = _
    rw [hfull]
    set full2 : List Char := pre ++ ('\\' :: (d :: (raw2 ++ q :: tl))) with hfull2
    have hw := peGo_clean_walk q full2 pre 0 ('\\' :: (d :: (raw2 ++ q :: tl)))
      (by rw [List.drop_zero]) hpre
    rw [Nat.zero_add] at hw
    rw [hw, peGo_cons, if_neg (by simp : ¬(false = true)), if_pos rfl]
    have htakepre : (full2.take pre.length).drop 0 = pre := by
      rw [List.drop_zero, hfull2, List.take_left]
    rw [htakepre, List.nil_append, peGo_cons, if_pos rfl]
    have hdrop2 : full2.drop (pre.length + 2) = raw2 ++ q :: tl := by
      have := drop_shift full2 (pre ++ ['\\', d]) (raw2 ++ q :: tl) 0 (by
        rw [List.drop_zero, hfull2]; simp)
      rw [List.length_append] at this
      simpa using this
    have hdirty := peGo_dirty q hqb full2 raw2.length raw2 le_rfl []
      (pre.length + 2) (pre ++ [d]) tl (by simpa using hdrop2) hv2 (by simp) (by simp)
    simp only [List.length_nil, Nat.add_zero] at hdirty
    rw [show pre.length + 1 + 1 = pre.length + 2 by omega, hdirty]
    have hdropfin : full2.drop (pre.length + 2 + raw2.length) = q :: tl := by
      have := drop_shift full2 (pre ++ '\\' :: d :: raw2) (q :: tl) 0 (by
        rw [List.drop_zero, hfull2]; simp)
      rw [show (pre ++ '\\' :: d :: raw2).length = pre.length + 2 + raw2.length by
        simp [List.length_append, List.length_cons]; omega] at this
      simpa using this
    rw [hdropfin]
    have hunraw : unescape raw = pre ++ (d :: unescape raw2) := by
      rw [hsplit, unescape_clean_prefix pre ('\\' :: d :: raw2) (fun c hc => (hpre c hc).1)]
      congr 1
    rw [hunraw]
    simp
  · rw [if_neg hb]
    have hclean := validRaw_clean q raw hv hb
    have hw := peGo_clean_walk q (raw ++ q :: tl) raw 0 (q :: tl)
      (by rw [List.drop_zero]) hclean
    rw [Nat.zero_add] at hw
    show peGo q (raw ++ q :: tl) (raw ++ q :: tl) 0 0 [] false = _
    rw [hw, peGo_cons, if_neg (by simp : ¬(false = true)), if_neg hqb, if_pos rfl,
      if_pos rfl, List.drop_left, List.take_left]

/-- Witness for C4: the content `ab` borrows; the content `a\"b` (with an
escaped quote) is owned and decodes to `a"b`. -/
theorem parse_escaped_witness :
    parse_escaped '"' ("ab".toList ++ '"' :: "x".toList)
      = .ok ('"' :: "x".toList) (.borrowed "ab".toList) ∧
    parse_escaped '"' (('a' :: '\\' :: '"' :: 'b' :: []) ++ '"' :: "x".toList)
      = .ok ('"' :: "x".toList) (.owned ('a' :: '"' :: 'b' :: [])) := by
  constructor
  · have h := parse_escaped_borrow_iff '"' "ab".toList "x".toList (Or.inl rfl) (by decide)
    rw [if_neg (by decide)] at h
    exact h
  · have h := parse_escaped_borrow_iff '"' ('a' :: '\\' :: '"' :: 'b' :: []) "x".toList
      (Or.inl rfl) (by decide)
    rw [if_pos (by decide)] at h
    rw [show unescape ('a' :: '\\' :: '"' :: 'b' :: []) = 'a' :: '"' :: 'b' :: [] by decide] at h
    exact h


/-- C2 (evaluation at the failing input): the `alt` in `fn float` lists
`tag_no_case("inf")` before `tag_no_case("infinity")`, so on the input
`infinity` (in any casing) `parse_f64` succeeds with positive infinity but
consumes only the three-character prefix `inf`, leaving `inity` unconsumed —
the full eight-character token is never consumed. -/
theorem parse_f64_infinity_prefix_only :
    parse_f64 "infinity".toList = .ok "inity".toList .inf ∧
    parse_f64 "INFINITY".toList = .ok "INITY".toList .inf ∧
    parse_f64 "Infinity".toList = .ok "inity".toList .inf := by
  refine ⟨by decide, by decide, by decide⟩


/-! ### Serializer emitter lemmas -/

theorem tokens_distinct :
    INT_ARRAY_TOKEN_STR ≠ BYTE_ARRAY_TOKEN_STR ∧
    LONG_ARRAY_TOKEN_STR ≠ BYTE_ARRAY_TOKEN_STR ∧
    LONG_ARRAY_TOKEN_STR ≠ INT_ARRAY_TOKEN_STR := by
  refine ⟨by decide, by decide, by decide⟩

theorem csv_sentinel (s : SerState) (hf : Bool) (k : List Char) (v : Value)
    (hk : k = BYTE_ARRAY_TOKEN_STR ∨ k = INT_ARRAY_TOKEN_STR ∨
      k = LONG_ARRAY_TOKEN_STR) :
    compoundSerializeValue s false hf (some k) v
      = match typedArraySer (if hf then newlineS (writeS s [',']) else s) (tokPre k) v with
        | .ok s2 => .ok (s2, false, true)
        | .error e => .error e := by
  rcases hk with rfl | rfl | rfl
  · rw [show tokPre BYTE_ARRAY_TOKEN_STR = ['B', ';'] from by
      rw [tokPre, if_pos rfl]]
    simp only [compoundSerializeValue, if_true]
  · rw [show tokPre INT_ARRAY_TOKEN_STR = ['I', ';'] from by
      rw [tokPre, if_neg tokens_distinct.1, if_pos rfl]]
    simp only [compoundSerializeValue, if_true]
    rw [if_neg tokens_distinct.1]
  · rw [show tokPre LONG_ARRAY_TOKEN_STR = ['L', ';'] from by
      rw [tokPre, if_neg tokens_distinct.2.1, if_neg tokens_distinct.2.2]]
    simp only [compoundSerializeValue, if_true]
    rw [if_neg tokens_distinct.2.1, if_neg tokens_distinct.2.2]

theorem mapGo_sentinel_tail :
    ∀ (entries : List (List Char × Value)),
    (∀ p ∈ entries, p.1 = BYTE_ARRAY_TOKEN_STR ∨ p.1 = INT_ARRAY_TOKEN_STR ∨
      p.1 = LONG_ARRAY_TOKEN_STR) →
    ∀ s : SerState, mapGo s false true entries = sentinelRender s false entries := by
  intro entries
  induction entries with
  | nil =>
    intro _ s
    simp [mapGo, sentinelRender]
  | cons p es ih =>
    intro h2 s
    obtain ⟨k, v⟩ := p
    have hk := h2 (k, v) (by simp)
    have hcsv := csv_sentinel s true k v hk
    rw [if_pos rfl] at hcsv
    simp only [mapGo, sentinelRender]
    rw [hcsv]
    simp only [Bool.false_eq_true, if_false, if_true]
    cases hta : typedArraySer (newlineS (writeS s [','])) (tokPre k) v with
    | ok s2 => exact ih (fun p hp => h2 p (by simp [hp])) s2
    | error e => rfl

/-- C10 (amended): for every NON-EMPTY map all of whose keys are sentinel
tokens, the compound emitter writes no `{`, no `}` and no `{}`: the output
is exactly the typed-array renderings of the values, separated by `,` (plus
the pretty-mode newline), and the end step writes nothing. -/
theorem sentinel_map_renders_arrays_only (entries : List (List Char × Value))
    (h1 : entries ≠ [])
    (h2 : ∀ p ∈ entries, p.1 = BYTE_ARRAY_TOKEN_STR ∨ p.1 = INT_ARRAY_TOKEN_STR ∨
      p.1 = LONG_ARRAY_TOKEN_STR) (ser : SerState) :
    mapGo ser false false entries = sentinelRender ser true entries := by
  cases entries with
  | nil => exact absurd rfl h1
  | cons p es =>
    obtain ⟨k, v⟩ := p
    have hk := h2 (k, v) (by simp)
    have hcsv := csv_sentinel ser false k v hk
    rw [if_neg (by simp)] at hcsv
    simp only [mapGo, sentinelRender]
    rw [hcsv]
    simp only [Bool.false_eq_true, if_false, if_true]
    cases hta : typedArraySer ser (tokPre k) v with
    | ok s2 => exact mapGo_sentinel_tail es (fun p hp => h2 p (by simp [hp])) s2
    | error e => rfl

/-- Witness for C10 (amended): a one-entry all-sentinel map at a concrete
state. -/
theorem sentinel_map_witness :
    mapGo ⟨[], none⟩ false false [(BYTE_ARRAY_TOKEN_STR, .vList [.vI8 1])]
      = sentinelRender ⟨[], none⟩ true [(BYTE_ARRAY_TOKEN_STR, .vList [.vI8 1])] :=
  sentinel_map_renders_arrays_only _ (by simp) (by simp) _

/-- C10 counterexample: the EMPTY map vacuously satisfies "every supplied key
is a sentinel", yet the end step writes the empty-compound token `{}`
(which contains an opening `{`), contradicting the claim as stated. -/
theorem empty_sentinel_map_writes_braces :
    serializeValue ⟨[], none⟩ (.vMap []) = .ok ⟨['\x7b', '\x7d'], none⟩ ∧
    '\x7b' ∈ ['\x7b', '\x7d'] := by
  constructor
  · simp [serializeValue, mapGo, writeS]
  · simp

/-- C6: for every compound-emitter state in which no key is pending, the
value-serialization step fails with the "value before key" error (it never
silently defaults), and the sink state carried with the error is the input
state unchanged — the failing call writes no bytes before returning. -/
theorem value_before_key (ser : SerState) (ic hf : Bool) (v : Value) :
    compoundSerializeValue ser ic hf none v
      = .error ("serialize_value called before serialize_key", ser) := by
  simp [compoundSerializeValue]

theorem joinComma_cons (x : List Char) (xs : List (List Char)) :
    joinComma (x :: xs) = x ++ (xs.map (fun y => ',' :: y)).flatten := by
  induction xs generalizing x with
  | nil => simp [joinComma]
  | cons y ys ih =>
    rw [show joinComma (x :: y :: ys) = x ++ ',' :: joinComma (y :: ys) from rfl, ih y]
    simp

theorem seqGo_u8_started (bs : List Nat) :
    ∀ out : List Char,
    seqGo ⟨out, none⟩ [] true (bs.map Value.vU8)
      = .ok ⟨out ++ ((bs.map (fun b => ',' :: (natChars b ++ ['b']))).flatten ++ [']']),
             none⟩ := by
  induction bs with
  | nil =>
    intro out
    simp [seqGo, popIndentS, pop_indent, newlineS, writeS]
  | cons b bs ih =>
    intro out
    simp only [List.map_cons, seqGo, if_true, serializeValue]
    rw [show newlineS (writeS ⟨out, none⟩ [',']) = ⟨out ++ [','], none⟩ from rfl]
    rw [show writeS ⟨out ++ [','], none⟩ (natChars b ++ ['b'])
      = ⟨(out ++ [','] ++ (natChars b ++ ['b']) : List Char), none⟩ from rfl]
    rw [ih (out ++ [','] ++ (natChars b ++ ['b']))]
    simp

theorem serialize_bytes_compact_out (bs : List Nat) (out : List Char) :
    serialize_bytes ⟨out, none⟩ bs
      = .ok ⟨out ++ '[' :: (joinComma (bs.map (fun b => natChars b ++ ['b'])) ++ [']']),
             none⟩ := by
  cases bs with
  | nil => simp [serialize_bytes, seqGo, writeS, joinComma]
  | cons b bs =>
    simp only [serialize_bytes, List.map_cons, seqGo, serializeValue]
    rw [if_neg (by simp)]
    rw [show writeS (newlineS (pushIndentS (writeS ⟨out, none⟩ ['[']))) []
      = ⟨out ++ ['['], none⟩ from by
        simp [writeS, newlineS, pushIndentS, push_indent]]
    rw [show newlineS ⟨out ++ ['['], none⟩ = ⟨out ++ ['['], none⟩ from rfl]
    rw [show writeS ⟨out ++ ['['], none⟩ (natChars b ++ ['b'])
      = ⟨(out ++ ['['] ++ (natChars b ++ ['b']) : List Char), none⟩ from rfl]
    rw [seqGo_u8_started bs (out ++ ['['] ++ (natChars b ++ ['b']))]
    rw [joinComma_cons, List.map_map]
    simp
    rfl

/-- C1 (amended): `serialize_bytes` passes the EMPTY prefix to the array
emitter, so in compact mode a byte sequence serializes as a plain list with
no type prefix: `[`, the bytes as `b`-suffixed 8-bit decimal elements joined
by `,`, then `]`. -/
theorem serialize_bytes_plain_list (bs : List Nat) (out : List Char) :
    serialize_bytes ⟨out, none⟩ bs
      = .ok ⟨out ++ '[' :: (joinComma (bs.map (fun b => natChars b ++ ['b'])) ++ [']']),
             none⟩ :=
  serialize_bytes_compact_out bs out

/-- C1 counterexample: in compact mode the byte sequence `[1,2,3]`
serializes to exactly `[1b,2b,3b]` and NOT to the typed byte array
`[B;1b,2b,3b]` required by the claim. -/
theorem serialize_bytes_not_typed_array :
    serialize_bytes ⟨[], none⟩ [1, 2, 3] = .ok ⟨"[1b,2b,3b]".toList, none⟩ ∧
    serialize_bytes ⟨[], none⟩ [1, 2, 3] ≠ .ok ⟨"[B;1b,2b,3b]".toList, none⟩ := by
  have h := serialize_bytes_compact_out [1, 2, 3] []
  have hout : (([] : List Char)
      ++ '[' :: (joinComma ([1, 2, 3].map (fun b => natChars b ++ ['b'])) ++ [']']))
      = "[1b,2b,3b]".toList := by decide
  rw [hout] at h
  refine ⟨h, ?_⟩
  rw [h]
  intro he
  simp only [Except.ok.injEq, SerState.mk.injEq] at he
  exact absurd he.1 (by decide)

end Fastsnbt
